import Mathlib

/-!
Verification of the numeric-unification core (`src/starlark/src/values/num.rs`)
and the type-predicate layer (`src/starlark/src/values/typing/type_compiled/globals.rs`)
of the starlark-rust value-semantics fragment.

IEEE-754 binary64 floats are embedded as their (sign, biased exponent,
fraction) encoding; every 64-bit pattern is covered.  A finite float's real
value times `2 ^ 1074` is an integer, so all value comparisons, truncations
and conversions are carried out exactly in `ℤ`/`ℕ` and every definition is
executable.
-/

set_option maxRecDepth 4000

namespace Starlark

/-- Fuel-driven binary logarithm: `log2F fuel n` is `⌊log₂ n⌋` whenever
`n ≤ fuel` and `1 ≤ n`.  Structural recursion on the fuel keeps it
kernel-reducible on concrete inputs. -/
def log2F : ℕ → ℕ → ℕ
  | 0, _ => 0
  | fuel + 1, n => if n < 2 then 0 else log2F fuel (n / 2) + 1

/-- Binary logarithm, `⌊log₂ n⌋` for `1 ≤ n` (and `0` at `0`). -/
def log2N (n : ℕ) : ℕ := log2F n n

/-- An IEEE-754 binary64 value, by its encoding: sign bit, 11-bit biased
exponent, 52-bit fraction.  Well-formedness of the field ranges is the
predicate `F64.wf`; every well-formed triple is one of the 2^64 bit
patterns of a Rust `f64`. -/
structure F64 where
  sign : Bool
  ex : ℕ
  fr : ℕ
  deriving DecidableEq, Repr

/-- Field ranges of a genuine binary64 bit pattern. -/
def F64.wf (f : F64) : Prop := f.ex < 2048 ∧ f.fr < 2 ^ 52

instance (f : F64) : Decidable f.wf := inferInstanceAs (Decidable (_ ∧ _))

/-- Rust `f64::is_nan`: exponent field all ones, fraction nonzero. -/
def F64.isNan (f : F64) : Bool := f.ex == 2047 && f.fr != 0

/-- Rust `f64::is_infinite`: exponent field all ones, fraction zero. -/
def F64.isInf (f : F64) : Bool := f.ex == 2047 && f.fr == 0

/-- Rust `f64::to_bits`: the raw 64-bit pattern, as a natural number. -/
def F64.toBits (f : F64) : ℕ := (if f.sign then 2 ^ 63 else 0) + f.ex * 2 ^ 52 + f.fr

/-- The float `0.0` (positive zero). -/
def posZero : F64 := ⟨false, 0, 0⟩

/-- The float `-0.0` (negative zero). -/
def negZero : F64 := ⟨true, 0, 0⟩

/-- Magnitude of the real value encoded by exponent/fraction fields, scaled
by `2 ^ 1074` so that it is a natural number:
subnormals (`ex = 0`) are `fr·2^(-1074)`, normals are `(2^52+fr)·2^(ex-1075)`. -/
def natScaled (e fr : ℕ) : ℕ :=
  (if e = 0 then fr else 2 ^ 52 + fr) * 2 ^ ((if e = 0 then 1 else e) - 1)

/-- Real value of a finite float, scaled by `2 ^ 1074` (an exact integer). -/
def F64.scaled (f : F64) : ℤ :=
  (if f.sign then -1 else 1) * (natScaled f.ex f.fr : ℤ)

/-- Rust `==` on `f64` (IEEE equality): `NaN` equals nothing, infinities
compare by sign, finite values compare by real value (so `0.0 == -0.0`). -/
def ieeeEq (a b : F64) : Bool :=
  if a.isNan || b.isNan then false
  else if a.isInf || b.isInf then a.isInf && b.isInf && a.sign == b.sign
  else a.scaled == b.scaled

/-- Integer three-way comparison, as Rust `Ord::cmp` on integers. -/
def cmpZ (a b : ℤ) : Ordering :=
  if a < b then .lt else if a = b then .eq else .gt

/-- Sort key of a non-NaN float: finite floats by scaled value, infinities
beyond every finite value (`|scaled| < 2 ^ 2098` for well-formed finite
floats, so `±2 ^ 2200` is safely outside). -/
def skey (f : F64) : ℤ :=
  if f.isInf then (if f.sign then -(2 ^ 2200) else 2 ^ 2200) else f.scaled

/-- Modelled from the spec: `StarlarkFloat::compare_impl` (in
`values/types/float.rs`, not under `src/`) is the total ordering comparator
on doubles that §4.1 of the spec assumes: total, agreeing with the IEEE
order on non-NaN values, with NaN at a single self-equal position (placed
below every other value here; the spec leaves the placement open). -/
def StarlarkFloat.compare_impl (a b : F64) : Ordering :=
  if a.isNan then (if b.isNan then .eq else .lt)
  else if b.isNan then .gt
  else cmpZ (skey a) (skey b)

/-- Truncation of a finite float toward zero, exact via the scaled value. -/
def F64.truncTo0 (f : F64) : ℤ :=
  (if f.sign then -1 else 1) * ((natScaled f.ex f.fr / 2 ^ 1074 : ℕ) : ℤ)

/-- Rust `f as i32` on an `f64`: NaN to 0, otherwise truncate toward zero
and saturate to `[-2^31, 2^31 - 1]`. -/
def truncSatToI32 (f : F64) : ℤ :=
  if f.isNan then 0
  else if f.isInf then (if f.sign then -(2 ^ 31) else 2 ^ 31 - 1)
  else max (-(2 ^ 31)) (min (2 ^ 31 - 1) f.truncTo0)

/-- Top 53 bits of `k` (meaningful for `2 ^ 53 ≤ k`), rounded to
nearest-even: one more than the quotient `k / 2 ^ (log2N k - 52)` when the
dropped remainder is above half of the divisor, or exactly half with an
odd quotient. -/
def roundedMant (k : ℕ) : ℕ :=
  if 2 ^ (log2N k - 52) < 2 * (k % 2 ^ (log2N k - 52)) ∨
      (2 * (k % 2 ^ (log2N k - 52)) = 2 ^ (log2N k - 52) ∧
        (k / 2 ^ (log2N k - 52)) % 2 = 1) then
    k / 2 ^ (log2N k - 52) + 1
  else k / 2 ^ (log2N k - 52)

/-- Encoding of a(n exponent, fraction) pair for a positive integer `k`:
exact when `k < 2 ^ 53`, otherwise IEEE round-to-nearest-even, overflowing
to the infinity pattern `(2047, 0)` beyond the largest finite double. -/
def natToParts (k : ℕ) : ℕ × ℕ :=
  if log2N k ≤ 52 then (log2N k + 1023, k * 2 ^ (52 - log2N k) - 2 ^ 52)
  else if roundedMant k = 2 ^ 53 then
    if 1023 ≤ log2N k then (2047, 0) else (log2N k + 1 + 1023, 0)
  else if 1024 ≤ log2N k then (2047, 0)
  else (log2N k + 1023, roundedMant k - 2 ^ 52)

/-- Conversion `ℤ → f64`.  For `|n| ≤ 2^31` this is Rust's exact `i32 as
f64` cast.  Modelled from the spec for the rest: `StarlarkIntRef::to_f64`
(in `values/types/int_or_big.rs`, not under `src/`) widens an
arbitrary-precision integer lossily to the nearest double (§4.1
`as_float`), i.e. IEEE round-to-nearest-even with overflow to infinity. -/
def intToF64 (n : ℤ) : F64 :=
  if n = 0 then posZero
  else ⟨decide (n < 0), (natToParts n.natAbs).1, (natToParts n.natAbs).2⟩

/-- Embedding of `Num::f64_to_i32_exact`: `let i = f as i32; if i as f64 == f
{ Some(i) } else { None }`. -/
def f64_to_i32_exact (f : F64) : Option ℤ :=
  let i := truncSatToI32 f
  if ieeeEq (intToF64 i) f then some i else none

/-- Rust `i as u64` for `i : i32`: sign-extension into 64 bits, i.e. the
residue of `i` modulo `2 ^ 64`. -/
def i32_as_u64 (i : ℤ) : ℕ := (i % 2 ^ 64).toNat

/-- Embedding of `float_hash` (the inner function of `Num::get_hash_64`):
NaN to 0, infinities to the all-ones pattern, both zeros to the bits of
`0.0`, every other float to its raw bit pattern. -/
def float_hash (f : F64) : ℕ :=
  if f.isNan then 0
  else if f.isInf then 2 ^ 64 - 1
  else if ieeeEq f posZero then posZero.toBits
  else f.toBits

/-- Embedding of `StarlarkIntRef`: an inline 32-bit integer or a borrowed
arbitrary-precision integer (§3 of the spec).  The smallest-representation
invariant (a `Big` never fits in 32 bits) is the predicate
`StarlarkIntRef.wf`. -/
inductive StarlarkIntRef where
  | Small (i : ℤ)
  | Big (b : ℤ)
  deriving DecidableEq, Repr

/-- Integer value represented, at arbitrary precision. -/
def StarlarkIntRef.toIntVal : StarlarkIntRef → ℤ
  | .Small i => i
  | .Big b => b

/-- Smallest-representation invariant, enforced upstream (§3): a 32-bit
value is stored `Small`, anything else is `Big`. -/
def StarlarkIntRef.wf : StarlarkIntRef → Prop
  | .Small i => -(2 ^ 31) ≤ i ∧ i < 2 ^ 31
  | .Big b => b < -(2 ^ 31) ∨ 2 ^ 31 ≤ b

instance : ∀ a : StarlarkIntRef, Decidable a.wf
  | .Small _ => inferInstanceAs (Decidable (_ ∧ _))
  | .Big _ => inferInstanceAs (Decidable (_ ∨ _))

/-- Embedding of `StarlarkIntRef::to_f64`: widen to double (exact for
`Small`, rounded for `Big`). -/
def StarlarkIntRef.to_f64 (a : StarlarkIntRef) : F64 := intToF64 a.toIntVal

/-- Embedding of `StarlarkIntRef::to_i32`: exact extraction when the value
fits in 32 bits. -/
def StarlarkIntRef.to_i32 : StarlarkIntRef → Option ℤ
  | .Small i => some i
  | .Big b => if -(2 ^ 31) ≤ b ∧ b < 2 ^ 31 then some b else none

/-- Embedding of `Num`: a numeric value unpacked from a runtime value
(`num.rs`, lines 38-42). -/
inductive Num where
  | Int (i : StarlarkIntRef)
  | Float (f : F64)
  deriving DecidableEq, Repr

/-- Embedding of `Num::as_float` (`num.rs`, lines 69-74). -/
def Num.as_float : Num → F64
  | .Int i => i.to_f64
  | .Float f => f

/-- Embedding of `Num::as_int` (`num.rs`, lines 82-87). -/
def Num.as_int : Num → Option ℤ
  | .Int i => i.to_i32
  | .Float f => f64_to_i32_exact f

/-- Embedding of `Num::get_hash_64` (`num.rs`, lines 90-120), including the
dead `(None, Small)` arm of the source's match. -/
def Num.get_hash_64 (n : Num) : ℕ :=
  match n.as_int, n with
  | some i, _ => i32_as_u64 i
  | none, .Float f => float_hash f
  | none, .Int (.Small i) => i32_as_u64 i
  | none, .Int (.Big b) => float_hash (intToF64 b)

/-- Embedding of `impl PartialEq for Num` (`num.rs`, lines 140-148): exact
comparison when both sides are `Int` (modelled from the spec as
arbitrary-precision value equality, `StarlarkIntRef`'s own `PartialEq` not
being under `src/`), otherwise widen both sides and compare with the total
float comparator. -/
def Num.eq (x y : Num) : Bool :=
  match x, y with
  | .Int a, .Int b => a.toIntVal == b.toIntVal
  | _, _ => StarlarkFloat.compare_impl x.as_float y.as_float == Ordering.eq

/-- Embedding of `impl Ord for Num` (`num.rs`, lines 158-166). -/
def Num.cmp (x y : Num) : Ordering :=
  match x, y with
  | .Int a, .Int b => cmpZ a.toIntVal b.toIntVal
  | _, _ => StarlarkFloat.compare_impl x.as_float y.as_float

/-- Well-formed numeric value: the integer respects the
smallest-representation invariant, the float is a genuine bit pattern. -/
def Num.wf : Num → Prop
  | .Int i => i.wf
  | .Float f => f.wf

instance : ∀ n : Num, Decidable n.wf
  | .Int i => inferInstanceAs (Decidable i.wf)
  | .Float f => inferInstanceAs (Decidable f.wf)

/-- Embedding of `impl From<i32> for Num` (`num.rs`, lines 127-131). -/
def Num.from_i32 (i : ℤ) : Num := .Int (.Small i)

/-- Embedding of `impl From<f64> for Num` (`num.rs`, lines 133-137). -/
def Num.from_f64 (f : F64) : Num := .Float f

/-- Runtime type objects of the modelled value universe (first-class types
such as `int`, usable as type expressions). -/
inductive TyObj where
  | tyInt
  | tyStr
  | tyBool
  | tyFloat
  | tyNone
  deriving DecidableEq, Repr

/-- A generic runtime `Value` (§6 of the spec): the numeric subtypes the
core downcasts, plus the non-numeric kinds exercised by the sources
(booleans, strings, `None`, first-class type objects). -/
inductive RVal where
  | intV (i : StarlarkIntRef)
  | floatV (f : F64)
  | boolV (b : Bool)
  | strV (s : String)
  | noneV
  | typeV (t : TyObj)
  deriving DecidableEq, Repr

/-- Human-readable type name of a runtime value (§6 (iv)). -/
def RVal.typeName : RVal → String
  | .intV _ => "int"
  | .floatV _ => "float"
  | .boolV _ => "bool"
  | .strV _ => "str"
  | .noneV => "NoneType"
  | .typeV _ => "type"

/-- Whether a runtime value is a first-class type object. -/
def RVal.isTypeV : RVal → Bool
  | .typeV _ => true
  | _ => false

/-- Downcast of a runtime value to an integer view
(`StarlarkIntRef::unpack_value`): succeeds exactly on integers of any
width. -/
def StarlarkIntRef.unpack_value : RVal → Option StarlarkIntRef
  | .intV i => some i
  | _ => none

/-- Downcast of a runtime value to a float
(`value.downcast_ref::<StarlarkFloat>()`). -/
def downcast_float : RVal → Option F64
  | .floatV f => some f
  | _ => none

/-- Embedding of `Num::unpack_value` (`num.rs`, lines 56-64): try the
integer downcast, then the float downcast, otherwise `None`. -/
def Num.unpack_value (v : RVal) : Option Num :=
  match StarlarkIntRef.unpack_value v with
  | some i => some (.Int i)
  | none =>
    match downcast_float v with
    | some f => some (.Float f)
    | none => none

/-- A compiled, reusable type predicate (§3 `CompiledTypePredicate`); the
field `matchesV` embeds `TypeCompiled::matches`. -/
structure TypeCompiled where
  matchesV : RVal → Bool

/-- Matcher of a first-class type object against a runtime value. -/
def matchesTy : TyObj → RVal → Bool
  | .tyInt, .intV _ => true
  | .tyStr, .strV _ => true
  | .tyBool, .boolV _ => true
  | .tyFloat, .floatV _ => true
  | .tyNone, .noneV => true
  | _, _ => false

/-- Modelled from the spec: `TypeCompiled::new_with_deprecation` (in
`type_compiled/compiled.rs`, not under `src/`), the deprecation-aware
compile path both built-ins call.  A first-class type object compiles to
its matcher; a value that is not a recognized type expression (in
particular a string such as `""`, per the source test `test_typechecking`)
fails with the §4.2 type error naming the expected category and the
offending value's type name. -/
def TypeCompiled.new_with_deprecation (ty : RVal) : Except String TypeCompiled :=
  match ty with
  | .typeV t => .ok ⟨matchesTy t⟩
  | v => .error ("Expected type `type` but got `" ++ v.typeName ++ "`")

/-- Embedding of the built-in `eval_type` (`globals.rs`, lines 31-36),
parameterized by the external compile path it invokes. -/
def eval_type (compile : RVal → Except String TypeCompiled) (ty : RVal) :
    Except String TypeCompiled :=
  compile ty

/-- Embedding of the built-in `isinstance` (`globals.rs`, lines 39-45):
compile the type expression through the same path, propagate its error
(`?`), otherwise test the value against the predicate. -/
def isinstance (compile : RVal → Except String TypeCompiled) (v ty : RVal) :
    Except String Bool :=
  match compile ty with
  | .ok p => .ok (p.matchesV v)
  | .error e => .error e

/-! ### Arithmetic groundwork -/

theorem log2F_spec : ∀ (fuel n : ℕ), 1 ≤ n → n ≤ fuel →
    2 ^ log2F fuel n ≤ n ∧ n < 2 ^ (log2F fuel n + 1) := by
  intro fuel
  induction fuel with
  | zero => intro n h1 h2; omega
  | succ fuel ih =>
    intro n h1 h2
    rw [log2F]
    by_cases hn : n < 2
    · rw [if_pos hn]; constructor
      · simpa using h1
      · simpa using hn
    · rw [if_neg hn]
      obtain ⟨ha, hb⟩ := ih (n / 2) (by omega) (by omega)
      constructor
      · rw [pow_succ]
        exact (Nat.le_div_iff_mul_le (by norm_num)).mp ha
      · rw [pow_succ]
        exact (Nat.div_lt_iff_lt_mul (by norm_num)).mp hb

theorem log2N_spec (n : ℕ) (h : 1 ≤ n) :
    2 ^ log2N n ≤ n ∧ n < 2 ^ (log2N n + 1) :=
  log2F_spec n n h le_rfl

theorem log2N_le (n k : ℕ) (h1 : 1 ≤ n) (h2 : n < 2 ^ (k + 1)) : log2N n ≤ k := by
  have hs := (log2N_spec n h1).1
  by_contra hc
  have : 2 ^ (k + 1) ≤ 2 ^ log2N n := Nat.pow_le_pow_right (by norm_num) (by omega)
  omega

theorem le_log2N (n k : ℕ) (h1 : 1 ≤ n) (h2 : 2 ^ k ≤ n) : k ≤ log2N n := by
  have hs := (log2N_spec n h1).2
  by_contra hc
  have : 2 ^ (log2N n + 1) ≤ 2 ^ k := Nat.pow_le_pow_right (by norm_num) (by omega)
  omega

theorem natScaled_eq_zero (e fr : ℕ) : natScaled e fr = 0 ↔ e = 0 ∧ fr = 0 := by
  by_cases he : e = 0
  · simp [natScaled, he]
  · have hp : 0 < (2 ^ 52 + fr) * 2 ^ (e - 1) :=
      Nat.mul_pos (by positivity) (by positivity)
    simp only [natScaled, if_neg he]
    constructor
    · intro h; omega
    · intro h; exact absurd h.1 he

theorem natScaled_lt (e fr : ℕ) (hfr : fr < 2 ^ 52) (he : e ≤ 2046) :
    natScaled e fr < 2 ^ 2098 := by
  by_cases h0 : e = 0
  · have : natScaled e fr = fr := by simp [natScaled, h0]
    have : fr < 2 ^ 2098 := lt_of_lt_of_le hfr (Nat.pow_le_pow_right (by norm_num) (by norm_num))
    omega
  · have hm : 2 ^ 52 + fr < 2 ^ 53 := by norm_num; omega
    have hee : (if e = 0 then 1 else e) - 1 ≤ 2045 := by simp [h0]; omega
    calc natScaled e fr = (2 ^ 52 + fr) * 2 ^ ((if e = 0 then 1 else e) - 1) := by
          simp [natScaled, h0]
      _ < 2 ^ 53 * 2 ^ ((if e = 0 then 1 else e) - 1) :=
          (Nat.mul_lt_mul_right (pow_pos (by norm_num) _)).mpr hm
      _ ≤ 2 ^ 53 * 2 ^ 2045 :=
          Nat.mul_le_mul_left _ (Nat.pow_le_pow_right (by norm_num) hee)
      _ = 2 ^ 2098 := by norm_num [← pow_add]

theorem mantissa_unique (M1 E1 M2 E2 : ℕ) (hM1 : M1 < 2 ^ 53) (h1 : 1 ≤ E1)
    (hsub : M2 < 2 ^ 52 → E2 = 1) (hle : E1 ≤ E2)
    (heq : M1 * 2 ^ (E1 - 1) = M2 * 2 ^ (E2 - 1)) : M1 = M2 ∧ E1 = E2 := by
  have hd : E2 - 1 = (E2 - E1) + (E1 - 1) := by omega
  have hM : M1 = M2 * 2 ^ (E2 - E1) := by
    have h : M1 * 2 ^ (E1 - 1) = (M2 * 2 ^ (E2 - E1)) * 2 ^ (E1 - 1) := by
      rw [heq, hd, pow_add, mul_assoc]
    exact Nat.eq_of_mul_eq_mul_right (pow_pos (by norm_num) _) h
  by_cases hd0 : E2 - E1 = 0
  · rw [hd0, pow_zero, mul_one] at hM
    exact ⟨hM, by omega⟩
  · exfalso
    have hM2 : 2 ^ 52 ≤ M2 := by
      by_contra hc
      have := hsub (by omega)
      omega
    have h2d : 2 ≤ 2 ^ (E2 - E1) := by
      calc (2:ℕ) = 2 ^ 1 := rfl
        _ ≤ 2 ^ (E2 - E1) := Nat.pow_le_pow_right (by norm_num) (by omega)
    have : 2 ^ 53 ≤ M1 := by
      calc (2:ℕ) ^ 53 = 2 ^ 52 * 2 := by norm_num
        _ ≤ M2 * 2 ^ (E2 - E1) := Nat.mul_le_mul hM2 h2d
        _ = M1 := hM.symm
    omega

theorem natScaled_inj (e1 f1 e2 f2 : ℕ) (hf1 : f1 < 2 ^ 52) (hf2 : f2 < 2 ^ 52)
    (heq : natScaled e1 f1 = natScaled e2 f2) :
    e1 = e2 ∧ f1 = f2 := by
  have hkey : ∀ (e f : ℕ),
      (if e = 0 then f else 2 ^ 52 + f) < 2 ^ 52 → (if e = 0 then 1 else e) = 1 := by
    intro e f
    by_cases h0 : e = 0
    · simp [h0]
    · simp only [if_neg h0]
      omega
  have hlt : ∀ (e f : ℕ), f < 2 ^ 52 → (if e = 0 then f else 2 ^ 52 + f) < 2 ^ 53 := by
    intro e f hf
    by_cases h0 : e = 0
    · simp only [if_pos h0]
      omega
    · simp only [if_neg h0]
      omega
  have h1p : ∀ e : ℕ, 1 ≤ (if e = 0 then 1 else e) := by
    intro e
    by_cases h0 : e = 0
    · simp [h0]
    · simp only [if_neg h0]
      omega
  have hME : (if e1 = 0 then f1 else 2 ^ 52 + f1) = (if e2 = 0 then f2 else 2 ^ 52 + f2) ∧
      (if e1 = 0 then 1 else e1) = (if e2 = 0 then 1 else e2) := by
    rcases le_total (if e1 = 0 then 1 else e1) (if e2 = 0 then 1 else e2) with hle | hle
    · exact mantissa_unique _ _ _ _ (hlt e1 f1 hf1) (h1p e1) (hkey e2 f2) hle heq
    · obtain ⟨ha, hb⟩ :=
        mantissa_unique _ _ _ _ (hlt e2 f2 hf2) (h1p e2) (hkey e1 f1) hle heq.symm
      exact ⟨ha.symm, hb.symm⟩
  obtain ⟨hM, hE⟩ := hME
  by_cases he1 : e1 = 0 <;> by_cases he2 : e2 = 0
  · simp only [if_pos he1, if_pos he2] at hM hE
    omega
  · simp only [if_pos he1, if_neg he2] at hM hE
    omega
  · simp only [if_neg he1, if_pos he2] at hM hE
    omega
  · simp only [if_neg he1, if_neg he2] at hM hE
    omega

/-! ### Rounding lemmas for `natToParts` -/

theorem roundedMant_lb (k : ℕ) (h1 : 1 ≤ k) (hb : 53 ≤ log2N k) :
    2 ^ 52 ≤ roundedMant k := by
  have hs := log2N_spec k h1
  have hq : 2 ^ 52 ≤ k / 2 ^ (log2N k - 52) := by
    rw [Nat.le_div_iff_mul_le (pow_pos (by norm_num) _), ← pow_add]
    have he : 52 + (log2N k - 52) = log2N k := by omega
    rw [he]
    exact hs.1
  unfold roundedMant
  split <;> omega

theorem roundedMant_ub (k : ℕ) (h1 : 1 ≤ k) (hb : 53 ≤ log2N k) :
    roundedMant k ≤ 2 ^ 53 := by
  have hs := log2N_spec k h1
  have hq : k / 2 ^ (log2N k - 52) < 2 ^ 53 := by
    rw [Nat.div_lt_iff_lt_mul (pow_pos (by norm_num) _), ← pow_add]
    have he : 53 + (log2N k - 52) = log2N k + 1 := by omega
    rw [he]
    exact hs.2
  unfold roundedMant
  split <;> omega

theorem natToParts_wf (k : ℕ) (h1 : 1 ≤ k) :
    (natToParts k).1 < 2048 ∧ (natToParts k).2 < 2 ^ 52 := by
  unfold natToParts
  split_ifs with hb hq hof hof
  · constructor
    · dsimp only
      omega
    · have hs := log2N_spec k h1
      have hk : k * 2 ^ (52 - log2N k) < 2 ^ 53 := by
        calc k * 2 ^ (52 - log2N k) < 2 ^ (log2N k + 1) * 2 ^ (52 - log2N k) :=
              (Nat.mul_lt_mul_right (pow_pos (by norm_num) _)).mpr hs.2
          _ = 2 ^ 53 := by
              rw [← pow_add]
              have he : log2N k + 1 + (52 - log2N k) = 53 := by omega
              rw [he]
      dsimp only
      omega
  · exact ⟨by norm_num, by positivity⟩
  · exact ⟨by dsimp only; omega, by positivity⟩
  · exact ⟨by norm_num, by positivity⟩
  · have hub := roundedMant_ub k h1 (by omega)
    constructor
    · dsimp only
      omega
    · dsimp only
      omega

theorem natToParts_not_nan (k : ℕ) (h1 : 1 ≤ k) :
    (natToParts k).1 = 2047 → (natToParts k).2 = 0 := by
  unfold natToParts
  split_ifs with hb hq hof hof
  · dsimp only
    omega
  · dsimp only
    omega
  · dsimp only
    omega
  · dsimp only
    omega
  · dsimp only
    omega

theorem natToParts_exact (k : ℕ) (h1 : 1 ≤ k) (h53 : k < 2 ^ 53) :
    (natToParts k).1 ≠ 0 ∧ (natToParts k).1 ≠ 2047 ∧
      natScaled (natToParts k).1 (natToParts k).2 = k * 2 ^ 1074 := by
  have hs := log2N_spec k h1
  have hb : log2N k ≤ 52 := log2N_le k 52 h1 (by omega)
  have hge : 2 ^ 52 ≤ k * 2 ^ (52 - log2N k) := by
    calc (2:ℕ) ^ 52 = 2 ^ log2N k * 2 ^ (52 - log2N k) := by
          rw [← pow_add]
          have he : log2N k + (52 - log2N k) = 52 := by omega
          rw [he]
      _ ≤ k * 2 ^ (52 - log2N k) := Nat.mul_le_mul_right _ hs.1
  unfold natToParts
  rw [if_pos hb]
  dsimp only
  refine ⟨by omega, by omega, ?_⟩
  simp only [natScaled]
  rw [if_neg (by omega), if_neg (by omega)]
  have hm : 2 ^ 52 + (k * 2 ^ (52 - log2N k) - 2 ^ 52) = k * 2 ^ (52 - log2N k) := by omega
  rw [hm, mul_assoc, ← pow_add]
  have he : 52 - log2N k + (log2N k + 1023 - 1) = 1074 := by omega
  rw [he]

theorem natToParts_lb (k : ℕ) (h1 : 1 ≤ k) :
    (natToParts k).1 = 2047 ∨
      2 ^ log2N k * 2 ^ 1074 ≤ natScaled (natToParts k).1 (natToParts k).2 := by
  have hs := log2N_spec k h1
  unfold natToParts
  split_ifs with hb hq hof hof
  · right
    have hge : 2 ^ 52 ≤ k * 2 ^ (52 - log2N k) := by
      calc (2:ℕ) ^ 52 = 2 ^ log2N k * 2 ^ (52 - log2N k) := by
            rw [← pow_add]
            have he : log2N k + (52 - log2N k) = 52 := by omega
            rw [he]
        _ ≤ k * 2 ^ (52 - log2N k) := Nat.mul_le_mul_right _ hs.1
    dsimp only
    simp only [natScaled]
    rw [if_neg (by omega), if_neg (by omega)]
    have hm : 2 ^ 52 + (k * 2 ^ (52 - log2N k) - 2 ^ 52) = k * 2 ^ (52 - log2N k) := by omega
    rw [hm, mul_assoc]
    have h2 : (2:ℕ) ^ (52 - log2N k) * 2 ^ (log2N k + 1023 - 1) = 2 ^ 1074 := by
      rw [← pow_add]
      have he : 52 - log2N k + (log2N k + 1023 - 1) = 1074 := by omega
      rw [he]
    rw [h2]
    exact Nat.mul_le_mul_right _ hs.1
  · left; rfl
  · right
    dsimp only
    simp only [natScaled]
    rw [if_neg (by omega), if_neg (by omega)]
    calc 2 ^ log2N k * 2 ^ 1074 = 2 ^ (log2N k + 1074) := by rw [← pow_add]
      _ ≤ 2 ^ (log2N k + 1075) := Nat.pow_le_pow_right (by norm_num) (by omega)
      _ = (2 ^ 52 + 0) * 2 ^ (log2N k + 1 + 1023 - 1) := by
          have he : 52 + (log2N k + 1 + 1023 - 1) = log2N k + 1075 := by omega
          have h2 : (2:ℕ) ^ 52 * 2 ^ (log2N k + 1 + 1023 - 1) = 2 ^ (log2N k + 1075) := by
            rw [← pow_add, he]
          omega
  · left; rfl
  · right
    have hlb := roundedMant_lb k h1 (by omega)
    dsimp only
    simp only [natScaled]
    rw [if_neg (by omega), if_neg (by omega)]
    have hm : 2 ^ 52 + (roundedMant k - 2 ^ 52) = roundedMant k := by omega
    rw [hm]
    calc 2 ^ log2N k * 2 ^ 1074 = 2 ^ 52 * 2 ^ (log2N k + 1023 - 1) := by
          rw [← pow_add, ← pow_add]
          have he : log2N k + 1074 = 52 + (log2N k + 1023 - 1) := by omega
          rw [he]
      _ ≤ roundedMant k * 2 ^ (log2N k + 1023 - 1) := Nat.mul_le_mul_right _ hlb

/-! ### Float classification and conversion lemmas -/

theorem isNan_iff (f : F64) : f.isNan = true ↔ f.ex = 2047 ∧ f.fr ≠ 0 := by
  simp [F64.isNan]

theorem isInf_iff (f : F64) : f.isInf = true ↔ f.ex = 2047 ∧ f.fr = 0 := by
  simp [F64.isInf]

theorem finite_ex (f : F64) (hn : f.isNan = false) (hi : f.isInf = false) :
    f.ex ≠ 2047 := by
  intro h
  rcases Nat.eq_zero_or_pos f.fr with h0 | h0
  · exact absurd ((isInf_iff f).mpr ⟨h, h0⟩) (by simp [hi])
  · exact absurd ((isNan_iff f).mpr ⟨h, by omega⟩) (by simp [hn])

theorem F64.ext2 (f g : F64) (hs : f.sign = g.sign) (he : f.ex = g.ex)
    (hf : f.fr = g.fr) : f = g := by
  cases f
  cases g
  simp_all

theorem scaled_natAbs (f : F64) : (F64.scaled f).natAbs = natScaled f.ex f.fr := by
  unfold F64.scaled
  by_cases hs : f.sign <;> simp [hs]

theorem intToF64_wf (n : ℤ) : (intToF64 n).wf := by
  unfold intToF64
  by_cases h0 : n = 0
  · rw [if_pos h0]
    exact ⟨by norm_num [posZero], by norm_num [posZero]⟩
  · rw [if_neg h0]
    exact natToParts_wf n.natAbs (Int.natAbs_pos.mpr h0)

theorem intToF64_not_nan (n : ℤ) : (intToF64 n).isNan = false := by
  unfold intToF64
  by_cases h0 : n = 0
  · rw [if_pos h0]
    rfl
  · rw [if_neg h0]
    by_cases h47 : (natToParts n.natAbs).1 = 2047
    · have h2 := natToParts_not_nan n.natAbs (Int.natAbs_pos.mpr h0) h47
      simp [F64.isNan, h47, h2]
    · simp [F64.isNan, h47]

theorem intToF64_exact (n : ℤ) (h53 : n.natAbs < 2 ^ 53) :
    (intToF64 n).isNan = false ∧ (intToF64 n).isInf = false ∧
      (intToF64 n).scaled = n * 2 ^ 1074 := by
  refine ⟨intToF64_not_nan n, ?_, ?_⟩
  · unfold intToF64
    by_cases h0 : n = 0
    · rw [if_pos h0]
      rfl
    · rw [if_neg h0]
      obtain ⟨hne0, hne47, hsc⟩ :=
        natToParts_exact n.natAbs (Int.natAbs_pos.mpr h0) h53
      simp [F64.isInf, hne47]
  · unfold intToF64
    by_cases h0 : n = 0
    · rw [if_pos h0]
      simp [h0, F64.scaled, posZero, natScaled]
    · rw [if_neg h0]
      obtain ⟨hne0, hne47, hsc⟩ :=
        natToParts_exact n.natAbs (Int.natAbs_pos.mpr h0) h53
      unfold F64.scaled
      dsimp only
      rw [hsc]
      by_cases hneg : n < 0
      · rw [if_pos (by simpa using hneg)]
        push_cast
        rw [abs_of_neg hneg]
        ring
      · rw [if_neg (by simpa using hneg)]
        push_cast
        rw [abs_of_nonneg (by omega)]
        ring

theorem intToF64_big (n : ℤ) (h53 : 2 ^ 53 ≤ n.natAbs) :
    (intToF64 n).isInf = true ∨
      2 ^ 53 * 2 ^ 1074 ≤ natScaled (intToF64 n).ex (intToF64 n).fr := by
  have h0 : n ≠ 0 := by
    intro h
    rw [h] at h53
    simp at h53
  unfold intToF64
  rw [if_neg h0]
  dsimp only
  have h1 : 1 ≤ n.natAbs := by omega
  have hlog : 53 ≤ log2N n.natAbs := le_log2N _ _ h1 h53
  rcases natToParts_lb n.natAbs h1 with h47 | hle
  · left
    have h2 := natToParts_not_nan n.natAbs h1 h47
    simp [F64.isInf, h47, h2]
  · right
    calc (2:ℕ) ^ 53 * 2 ^ 1074 ≤ 2 ^ log2N n.natAbs * 2 ^ 1074 :=
          Nat.mul_le_mul_right _ (Nat.pow_le_pow_right (by norm_num) hlog)
      _ ≤ _ := hle

theorem trunc_of_scaled (f : F64) (i : ℤ) (hsc : f.scaled = i * 2 ^ 1074) :
    f.truncTo0 = i := by
  have habs : natScaled f.ex f.fr = i.natAbs * 2 ^ 1074 := by
    have h1 : (F64.scaled f).natAbs = (i * 2 ^ 1074).natAbs := by rw [hsc]
    rw [scaled_natAbs] at h1
    rw [h1, Int.natAbs_mul]
    simp [Int.natAbs_pow]
  unfold F64.truncTo0
  rw [habs, Nat.mul_div_cancel _ (pow_pos (by norm_num) 1074)]
  unfold F64.scaled at hsc
  rw [habs] at hsc
  cases hs : f.sign
  · simp only [hs, Bool.false_eq_true, if_false, one_mul] at hsc ⊢
    push_cast at hsc ⊢
    exact mul_right_cancel₀ (by positivity) hsc
  · simp only [hs, if_true] at hsc ⊢
    push_cast at hsc ⊢
    rw [show -1 * (|i| * (2:ℤ) ^ 1074) = (-1 * |i|) * 2 ^ 1074 by ring] at hsc
    exact mul_right_cancel₀ (by positivity) hsc

theorem truncSat_range (f : F64) :
    -(2 ^ 31) ≤ truncSatToI32 f ∧ truncSatToI32 f ≤ 2 ^ 31 - 1 := by
  unfold truncSatToI32
  split_ifs with h1 h2 h3
  · norm_num
  · norm_num
  · norm_num
  · constructor
    · exact le_max_left _ _
    · exact max_le (by norm_num) (min_le_left _ _)

theorem ieeeEq_refl (f : F64) (h : f.isNan = false) : ieeeEq f f = true := by
  by_cases hi : f.isInf <;> simp [ieeeEq, h, hi]

theorem ieeeEq_nan_right (a b : F64) (h : b.isNan = true) : ieeeEq a b = false := by
  simp [ieeeEq, h]

theorem ieeeEq_elim (a b : F64) (h : ieeeEq a b = true) :
    a.isNan = false ∧ b.isNan = false ∧
      ((a.isInf = true ∧ b.isInf = true ∧ a.sign = b.sign) ∨
        (a.isInf = false ∧ b.isInf = false ∧ a.scaled = b.scaled)) := by
  unfold ieeeEq at h
  by_cases h1 : (a.isNan || b.isNan) = true
  · rw [if_pos h1] at h
    exact absurd h (by simp)
  · rw [if_neg h1] at h
    simp only [Bool.or_eq_true, not_or, Bool.not_eq_true] at h1
    by_cases h2 : (a.isInf || b.isInf) = true
    · rw [if_pos h2] at h
      simp only [Bool.and_eq_true, beq_iff_eq] at h
      exact ⟨h1.1, h1.2, .inl ⟨h.1.1, h.1.2, h.2⟩⟩
    · rw [if_neg h2] at h
      simp only [Bool.or_eq_true, not_or, Bool.not_eq_true] at h2
      simp only [beq_iff_eq] at h
      exact ⟨h1.1, h1.2, .inr ⟨h2.1, h2.2, h⟩⟩

theorem ieeeEq_of_scaled (a b : F64) (hna : a.isNan = false) (hnb : b.isNan = false)
    (hia : a.isInf = false) (hib : b.isInf = false) (h : a.scaled = b.scaled) :
    ieeeEq a b = true := by
  unfold ieeeEq
  rw [hna, hnb, hia, hib]
  simp [h]

theorem f64_exact_roundtrip (i : ℤ) (hlo : -(2 ^ 31) ≤ i) (hhi : i < 2 ^ 31) :
    f64_to_i32_exact (intToF64 i) = some i := by
  obtain ⟨hnan, hinf, hsc⟩ := intToF64_exact i (by omega)
  have htr : (intToF64 i).truncTo0 = i := trunc_of_scaled _ _ hsc
  have hts : truncSatToI32 (intToF64 i) = i := by
    unfold truncSatToI32
    rw [if_neg (by simp [hnan]), if_neg (by simp [hinf]), htr]
    rw [max_def, min_def]
    split_ifs <;> omega
  simp only [f64_to_i32_exact]
  rw [hts, if_pos (ieeeEq_refl _ hnan)]

theorem f64_big_none (v : ℤ) (hwf : v < -(2 ^ 31) ∨ 2 ^ 31 ≤ v) :
    f64_to_i32_exact (intToF64 v) = none := by
  have hnanF : (intToF64 v).isNan = false := intToF64_not_nan v
  have hrange := truncSat_range (intToF64 v)
  have hiabs : (truncSatToI32 (intToF64 v)).natAbs < 2 ^ 53 := by
    rcases Int.natAbs_eq (truncSatToI32 (intToF64 v)) with hx | hx <;> omega
  obtain ⟨hnan_i, hinf_i, hsc_i⟩ :=
    intToF64_exact (truncSatToI32 (intToF64 v)) hiabs
  have hne : ieeeEq (intToF64 (truncSatToI32 (intToF64 v))) (intToF64 v) = false := by
    cases hb : ieeeEq (intToF64 (truncSatToI32 (intToF64 v))) (intToF64 v)
    · rfl
    · exfalso
      obtain ⟨_, _, hcase⟩ := ieeeEq_elim _ _ hb
      rcases hcase with ⟨hinf1, _, _⟩ | ⟨_, hinfF, hscaled⟩
      · rw [hinf_i] at hinf1
        exact absurd hinf1 (by simp)
      · rw [hsc_i] at hscaled
        by_cases h53 : v.natAbs < 2 ^ 53
        · obtain ⟨_, _, hscv⟩ := intToF64_exact v h53
          rw [hscv] at hscaled
          have hiv : truncSatToI32 (intToF64 v) = v :=
            mul_right_cancel₀ (by positivity) hscaled
          omega
        · rcases intToF64_big v (by omega) with hbig | hbig
          · rw [hbig] at hinfF
            exact absurd hinfF (by simp)
          · have habs : natScaled (intToF64 v).ex (intToF64 v).fr =
                (truncSatToI32 (intToF64 v)).natAbs * 2 ^ 1074 := by
              rw [← scaled_natAbs, ← hscaled, Int.natAbs_mul]
              simp [Int.natAbs_pow]
            rw [habs] at hbig
            have h2 : 2 ^ 53 ≤ (truncSatToI32 (intToF64 v)).natAbs :=
              Nat.le_of_mul_le_mul_right hbig (pow_pos (by norm_num) _)
            omega

  simp only [f64_to_i32_exact]
  rw [hne]
  simp

/-! ### The sort key and the total comparator -/

theorem scaled_bound (f : F64) (hwf : f.wf) (hn : f.isNan = false)
    (hi : f.isInf = false) : natScaled f.ex f.fr < 2 ^ 2098 := by
  have hex := finite_ex f hn hi
  have h1 := hwf.1
  exact natScaled_lt f.ex f.fr hwf.2 (by omega)

theorem skey_cases (f g : F64) (hwf : f.wf) (hwg : g.wf) (hnf : f.isNan = false)
    (hng : g.isNan = false) (h : skey f = skey g) :
    f = g ∨ ((f.ex = 0 ∧ f.fr = 0) ∧ (g.ex = 0 ∧ g.fr = 0)) := by
  have hpow : (2:ℕ) ^ 2098 ≤ 2 ^ 2200 := Nat.pow_le_pow_right (by norm_num) (by norm_num)
  unfold skey at h
  by_cases hif : f.isInf = true
  · by_cases hig : g.isInf = true
    · rw [if_pos hif, if_pos hig] at h
      left
      obtain ⟨hfe, hff⟩ := (isInf_iff f).mp hif
      obtain ⟨hge, hgf⟩ := (isInf_iff g).mp hig
      have hsign : f.sign = g.sign := by
        by_cases hsf : f.sign = true <;> by_cases hsg : g.sign = true
        · rw [hsf, hsg]
        · rw [if_pos hsf, if_neg hsg] at h
          exfalso
          have hp : (0:ℤ) < 2 ^ 2200 := by positivity
          omega
        · rw [if_neg hsf, if_pos hsg] at h
          exfalso
          have hp : (0:ℤ) < 2 ^ 2200 := by positivity
          omega
        · rw [Bool.not_eq_true] at hsf hsg
          rw [hsf, hsg]
      exact F64.ext2 f g hsign (by omega) (by omega)
    · exfalso
      rw [if_pos hif, if_neg hig] at h
      have hb := scaled_bound g hwg hng (by simpa using hig)
      have habs : (F64.scaled g).natAbs < 2 ^ 2098 := by
        rw [scaled_natAbs]
        exact hb
      by_cases hsf : f.sign = true
      · rw [if_pos hsf] at h
        have h2 : (F64.scaled g).natAbs = 2 ^ 2200 := by
          rw [← h]
          simp [Int.natAbs_pow]
        rw [h2] at habs
        exact absurd habs (not_lt.mpr hpow)
      · rw [if_neg hsf] at h
        have h2 : (F64.scaled g).natAbs = 2 ^ 2200 := by
          rw [← h]
          simp [Int.natAbs_pow]
        rw [h2] at habs
        exact absurd habs (not_lt.mpr hpow)
  · by_cases hig : g.isInf = true
    · exfalso
      rw [if_neg hif, if_pos hig] at h
      have hb := scaled_bound f hwf hnf (by simpa using hif)
      have habs : (F64.scaled f).natAbs < 2 ^ 2098 := by
        rw [scaled_natAbs]
        exact hb
      by_cases hsg : g.sign = true
      · rw [if_pos hsg] at h
        have h2 : (F64.scaled f).natAbs = 2 ^ 2200 := by
          rw [h]
          simp [Int.natAbs_pow]
        rw [h2] at habs
        exact absurd habs (not_lt.mpr hpow)
      · rw [if_neg hsg] at h
        have h2 : (F64.scaled f).natAbs = 2 ^ 2200 := by
          rw [h]
          simp [Int.natAbs_pow]
        rw [h2] at habs
        exact absurd habs (not_lt.mpr hpow)
    · rw [if_neg hif, if_neg hig] at h
      have habs : natScaled f.ex f.fr = natScaled g.ex g.fr := by
        rw [← scaled_natAbs, ← scaled_natAbs, h]
      obtain ⟨he, hfr⟩ := natScaled_inj _ _ _ _ hwf.2 hwg.2 habs
      by_cases h0 : natScaled f.ex f.fr = 0
      · right
        have h0g : natScaled g.ex g.fr = 0 := by
          rw [← habs]
          exact h0
        exact ⟨(natScaled_eq_zero _ _).mp h0, (natScaled_eq_zero _ _).mp h0g⟩
      · left
        have hsign : f.sign = g.sign := by
          unfold F64.scaled at h
          have hpos : 0 < natScaled f.ex f.fr := Nat.pos_of_ne_zero h0
          by_cases hsf : f.sign = true <;> by_cases hsg : g.sign = true
          · rw [hsf, hsg]
          · rw [if_pos hsf, if_neg hsg] at h
            exfalso
            omega
          · rw [if_neg hsf, if_pos hsg] at h
            exfalso
            omega
          · rw [Bool.not_eq_true] at hsf hsg
            rw [hsf, hsg]
        exact F64.ext2 f g hsign he hfr

theorem cmpZ_eq_iff (a b : ℤ) : cmpZ a b = .eq ↔ a = b := by
  unfold cmpZ
  split_ifs with h1 h2
  · constructor
    · intro h
      exact absurd h (by decide)
    · intro h
      omega
  · simp [h2]
  · constructor
    · intro h
      exact absurd h (by decide)
    · intro h
      exact absurd h h2

theorem cmpZ_refl (a : ℤ) : cmpZ a a = .eq := (cmpZ_eq_iff a a).mpr rfl

theorem compare_impl_eq_cases (a b : F64)
    (h : StarlarkFloat.compare_impl a b = .eq) :
    (a.isNan = true ∧ b.isNan = true) ∨
      (a.isNan = false ∧ b.isNan = false ∧ skey a = skey b) := by
  unfold StarlarkFloat.compare_impl at h
  by_cases h1 : a.isNan = true
  · rw [if_pos h1] at h
    by_cases h2 : b.isNan = true
    · exact .inl ⟨h1, h2⟩
    · rw [if_neg h2] at h
      exact absurd h (by decide)
  · rw [if_neg h1] at h
    by_cases h2 : b.isNan = true
    · rw [if_pos h2] at h
      exact absurd h (by decide)
    · rw [if_neg h2] at h
      exact .inr ⟨by simpa using h1, by simpa using h2, (cmpZ_eq_iff _ _).mp h⟩

theorem compare_impl_eq_of_skey (a b : F64) (hna : a.isNan = false)
    (hnb : b.isNan = false) (h : skey a = skey b) :
    StarlarkFloat.compare_impl a b = .eq := by
  unfold StarlarkFloat.compare_impl
  rw [if_neg (by simp [hna]), if_neg (by simp [hnb])]
  exact (cmpZ_eq_iff _ _).mpr h

theorem compare_impl_refl (a : F64) : StarlarkFloat.compare_impl a a = .eq := by
  unfold StarlarkFloat.compare_impl
  by_cases h : a.isNan = true
  · rw [if_pos h, if_pos h]
  · rw [if_neg h, if_neg h]
    exact cmpZ_refl _

theorem compare_impl_symm_eq (a b : F64)
    (h : StarlarkFloat.compare_impl a b = .eq) :
    StarlarkFloat.compare_impl b a = .eq := by
  rcases compare_impl_eq_cases a b h with ⟨h1, h2⟩ | ⟨h1, h2, h3⟩
  · unfold StarlarkFloat.compare_impl
    rw [if_pos h2, if_pos h1]
  · exact compare_impl_eq_of_skey b a h2 h1 h3.symm

theorem ord_beq_iff (o : Ordering) : (o == Ordering.eq) = true ↔ o = .eq := by
  cases o <;> decide

/-! ### `Num`-level lemmas -/

theorem as_int_small (i : ℤ) : (Num.Int (.Small i)).as_int = some i := rfl

theorem as_int_big (v : ℤ) (hwf : (StarlarkIntRef.Big v).wf) :
    (Num.Int (.Big v)).as_int = none := by
  have h2 : v < -(2 ^ 31) ∨ 2 ^ 31 ≤ v := hwf
  show StarlarkIntRef.to_i32 (.Big v) = none
  simp only [StarlarkIntRef.to_i32]
  rw [if_neg (by omega)]

theorem hash_int_small (i : ℤ) :
    (Num.Int (.Small i)).get_hash_64 = i32_as_u64 i := rfl

theorem hash_int_big (v : ℤ) (hwf : (StarlarkIntRef.Big v).wf) :
    (Num.Int (.Big v)).get_hash_64 = float_hash (intToF64 v) := by
  unfold Num.get_hash_64
  rw [as_int_big v hwf]

theorem hash_float_as_int (f : F64) :
    (Num.Float f).get_hash_64 =
      (match f64_to_i32_exact f with
        | some i => i32_as_u64 i
        | none => float_hash f) := by
  unfold Num.get_hash_64
  have ha : (Num.Float f).as_int = f64_to_i32_exact f := rfl
  rw [ha]
  cases f64_to_i32_exact f <;> rfl

set_option maxRecDepth 40000 in
theorem hash_float_zero (s : Bool) :
    (Num.Float ⟨s, 0, 0⟩).get_hash_64 = i32_as_u64 0 := by
  cases s <;> decide

theorem num_eq_int_int (a b : StarlarkIntRef) :
    Num.eq (.Int a) (.Int b) = true ↔ a.toIntVal = b.toIntVal := by
  show (a.toIntVal == b.toIntVal) = true ↔ _
  exact beq_iff_eq

theorem num_eq_int_float (a : StarlarkIntRef) (g : F64) :
    Num.eq (.Int a) (.Float g) = true ↔
      StarlarkFloat.compare_impl a.to_f64 g = .eq := by
  show (StarlarkFloat.compare_impl _ _ == Ordering.eq) = true ↔ _
  exact ord_beq_iff _

theorem num_eq_float_int (f : F64) (b : StarlarkIntRef) :
    Num.eq (.Float f) (.Int b) = true ↔
      StarlarkFloat.compare_impl f b.to_f64 = .eq := by
  show (StarlarkFloat.compare_impl _ _ == Ordering.eq) = true ↔ _
  exact ord_beq_iff _

theorem num_eq_float_float (f g : F64) :
    Num.eq (.Float f) (.Float g) = true ↔
      StarlarkFloat.compare_impl f g = .eq := by
  show (StarlarkFloat.compare_impl _ _ == Ordering.eq) = true ↔ _
  exact ord_beq_iff _

theorem num_eq_iff_cmp_eq (x y : Num) : Num.eq x y = true ↔ Num.cmp x y = .eq := by
  cases x <;> cases y
  · rw [num_eq_int_int]
    show _ ↔ cmpZ _ _ = .eq
    exact (cmpZ_eq_iff _ _).symm
  · exact num_eq_int_float _ _
  · exact num_eq_float_int _ _
  · exact num_eq_float_float _ _

theorem to_f64_small (i : ℤ) : StarlarkIntRef.to_f64 (.Small i) = intToF64 i := rfl

theorem to_f64_big (v : ℤ) : StarlarkIntRef.to_f64 (.Big v) = intToF64 v := rfl

theorem hash_int_float (a : StarlarkIntRef) (g : F64) (hwa : a.wf) (hwg : g.wf)
    (h : StarlarkFloat.compare_impl a.to_f64 g = .eq) :
    (Num.Int a).get_hash_64 = (Num.Float g).get_hash_64 := by
  cases a with
  | Small i =>
    rw [to_f64_small] at h
    have hrange : -(2 ^ 31) ≤ i ∧ i < 2 ^ 31 := hwa
    have hnanF : (intToF64 i).isNan = false := intToF64_not_nan i
    rcases compare_impl_eq_cases _ _ h with ⟨h1, _⟩ | ⟨_, hng, hsk⟩
    · rw [hnanF] at h1
      exact absurd h1 (by simp)
    · rcases skey_cases _ _ (intToF64_wf i) hwg hnanF hng hsk with
        hgeq | ⟨⟨hze, hzf⟩, hgz⟩
      · rw [hash_int_small, hash_float_as_int, ← hgeq,
          f64_exact_roundtrip i hrange.1 hrange.2]
      · obtain ⟨_, _, hsc⟩ := intToF64_exact i
          (by rcases Int.natAbs_eq i with hx | hx <;> omega)
        have hs0 : F64.scaled (intToF64 i) = 0 := by
          unfold F64.scaled
          rw [hze, hzf]
          simp [natScaled]
        rw [hsc] at hs0
        have hi0 : i = 0 := (mul_eq_zero.mp hs0).resolve_right (by positivity)
        subst hi0
        rw [hash_int_small]
        obtain ⟨gs, ge, gf⟩ := g
        obtain ⟨hge0, hgf0⟩ := hgz
        dsimp only at hge0 hgf0
        subst hge0
        subst hgf0
        exact (hash_float_zero gs).symm
  | Big v =>
    rw [to_f64_big] at h
    have hrange : v < -(2 ^ 31) ∨ 2 ^ 31 ≤ v := hwa
    have hnanF : (intToF64 v).isNan = false := intToF64_not_nan v
    rcases compare_impl_eq_cases _ _ h with ⟨h1, _⟩ | ⟨_, hng, hsk⟩
    · rw [hnanF] at h1
      exact absurd h1 (by simp)
    · rcases skey_cases _ _ (intToF64_wf v) hwg hnanF hng hsk with
        hgeq | ⟨⟨hze, hzf⟩, hgz⟩
      · rw [hash_int_big v hwa, hash_float_as_int, ← hgeq, f64_big_none v hrange]
      · exfalso
        have hzero : natScaled (intToF64 v).ex (intToF64 v).fr = 0 := by
          rw [hze, hzf]
          simp [natScaled]
        by_cases h53 : v.natAbs < 2 ^ 53
        · obtain ⟨_, _, hsc⟩ := intToF64_exact v h53
          have hs0 : F64.scaled (intToF64 v) = 0 := by
            unfold F64.scaled
            rw [hze, hzf]
            simp [natScaled]
          rw [hsc] at hs0
          have hv0 : v = 0 := (mul_eq_zero.mp hs0).resolve_right (by positivity)
          omega
        · rcases intToF64_big v (by omega) with hinf | hbig
          · rw [isInf_iff] at hinf
            omega
          · rw [hzero] at hbig
            have hp : (0:ℕ) < 2 ^ 53 * 2 ^ 1074 := by positivity
            omega

theorem hash_float_float (f g : F64) (hwf : f.wf) (hwg : g.wf)
    (h : StarlarkFloat.compare_impl f g = .eq) :
    (Num.Float f).get_hash_64 = (Num.Float g).get_hash_64 := by
  rcases compare_impl_eq_cases _ _ h with ⟨h1, h2⟩ | ⟨hnf, hng, hsk⟩
  · -- both NaN: both hash through float_hash to 0
    have hip : ∀ p : F64, p.isNan = true → (Num.Float p).get_hash_64 = 0 := by
      intro p hp
      rw [hash_float_as_int]
      have hnone : f64_to_i32_exact p = none := by
        simp only [f64_to_i32_exact]
        rw [ieeeEq_nan_right _ _ hp]
        simp
      rw [hnone]
      unfold float_hash
      rw [if_pos hp]
    rw [hip f h1, hip g h2]
  · rcases skey_cases _ _ hwf hwg hnf hng hsk with hfg | ⟨⟨hze, hzf⟩, ⟨hge, hgf⟩⟩
    · rw [hfg]
    · obtain ⟨fs, fe, ff⟩ := f
      obtain ⟨gs, ge, gf⟩ := g
      dsimp only at hze hzf hge hgf
      subst hze
      subst hzf
      subst hge
      subst hgf
      rw [hash_float_zero fs, hash_float_zero gs]

/-! ### Claim theorems -/

set_option maxRecDepth 40000 in
/-- C1: Hash/equality consistency: any two well-formed NumericValues that are
equal under the `PartialEq` law hash identically under `get_hash_64`; in
particular `Num::from(0)`, `Num::from(0.0)` and `Num::from(-0.0)` are
pairwise equal and hash identically, and every 32-bit integer `i` equals
`Num::Float(i as f64)` with matching hashes. -/
theorem claim_hash_eq_consistency :
    (∀ x y : Num, x.wf → y.wf → Num.eq x y = true →
      x.get_hash_64 = y.get_hash_64) ∧
    (Num.eq (Num.from_i32 0) (Num.from_f64 posZero) = true ∧
      Num.eq (Num.from_f64 posZero) (Num.from_f64 negZero) = true ∧
      Num.eq (Num.from_i32 0) (Num.from_f64 negZero) = true ∧
      (Num.from_i32 0).get_hash_64 = (Num.from_f64 posZero).get_hash_64 ∧
      (Num.from_f64 posZero).get_hash_64 = (Num.from_f64 negZero).get_hash_64) ∧
    (∀ i : ℤ, -(2 ^ 31) ≤ i → i < 2 ^ 31 →
      Num.eq (.Int (.Small i)) (.Float (intToF64 i)) = true ∧
      (Num.Int (.Small i)).get_hash_64 = (Num.Float (intToF64 i)).get_hash_64) := by
  refine ⟨?_, by decide, ?_⟩
  · intro x y hwx hwy heq
    cases x with
    | Int a =>
      cases y with
      | Int b =>
        rw [num_eq_int_int] at heq
        cases a with
        | Small i =>
          cases b with
          | Small j =>
            have hij : i = j := heq
            rw [hij]
          | Big w =>
            exfalso
            have h1 : -(2 ^ 31) ≤ i ∧ i < 2 ^ 31 := hwx
            have h2 : w < -(2 ^ 31) ∨ 2 ^ 31 ≤ w := hwy
            have h3 : i = w := heq
            omega
        | Big v =>
          cases b with
          | Small j =>
            exfalso
            have h1 : v < -(2 ^ 31) ∨ 2 ^ 31 ≤ v := hwx
            have h2 : -(2 ^ 31) ≤ j ∧ j < 2 ^ 31 := hwy
            have h3 : v = j := heq
            omega
          | Big w =>
            have h3 : v = w := heq
            rw [h3]
      | Float g =>
        rw [num_eq_int_float] at heq
        exact hash_int_float a g hwx hwy heq
    | Float f =>
      cases y with
      | Int b =>
        rw [num_eq_float_int] at heq
        exact (hash_int_float b f hwy hwx (compare_impl_symm_eq _ _ heq)).symm
      | Float g =>
        rw [num_eq_float_float] at heq
        exact hash_float_float f g hwx hwy heq
  · intro i h1 h2
    constructor
    · rw [num_eq_int_float, to_f64_small]
      exact compare_impl_refl _
    · rw [hash_int_small, hash_float_as_int, f64_exact_roundtrip i h1 h2]

/-- C2: Equality law: `x == y` holds iff both are Int variants equal at
arbitrary precision, or at least one side is a Float and both sides widened
via `as_float()` compare `Equal` under the ordering comparator; as a
consequence every NumericValue built from a NaN is self-equal. -/
theorem claim_equality_law :
    (∀ x y : Num, Num.eq x y = true ↔
      ((∃ a b, x = .Int a ∧ y = .Int b ∧ a.toIntVal = b.toIntVal) ∨
        (((∃ f, x = .Float f) ∨ (∃ g, y = .Float g)) ∧
          StarlarkFloat.compare_impl x.as_float y.as_float = .eq))) ∧
    (∀ f : F64, f.isNan = true → Num.eq (.Float f) (.Float f) = true) := by
  constructor
  · intro x y
    cases x with
    | Int a =>
      cases y with
      | Int b =>
        rw [num_eq_int_int]
        simp [Num.as_float]
      | Float g =>
        rw [num_eq_int_float]
        simp [Num.as_float]
    | Float f =>
      cases y with
      | Int b =>
        rw [num_eq_float_int]
        simp [Num.as_float]
      | Float g =>
        rw [num_eq_float_float]
        simp [Num.as_float]
  · intro f h
    rw [num_eq_float_float]
    simp [StarlarkFloat.compare_impl, h]

/-- C3: Trichotomy of the total ordering: for every pair of NumericValues
exactly one of `x < y` (cmp `.lt`), `x == y`, `x > y` (cmp `.gt`) holds,
NaN included; `cmp`, `==` and `get_hash_64` are total Lean functions over
the whole Int/Float domain by construction, so they never fail. -/
theorem claim_cmp_trichotomy :
    ∀ x y : Num,
      (Num.cmp x y = .lt ∧ Num.eq x y = false ∧ Num.cmp x y ≠ .gt) ∨
      (Num.cmp x y ≠ .lt ∧ Num.eq x y = true ∧ Num.cmp x y ≠ .gt) ∨
      (Num.cmp x y ≠ .lt ∧ Num.eq x y = false ∧ Num.cmp x y = .gt) := by
  intro x y
  have h := num_eq_iff_cmp_eq x y
  cases hc : Num.cmp x y with
  | lt =>
    left
    have heqf : Num.eq x y = false := by
      cases hb : Num.eq x y
      · rfl
      · have h2 := h.mp hb
        rw [hc] at h2
        exact absurd h2 (by decide)
    exact ⟨rfl, heqf, by decide⟩
  | eq =>
    right
    left
    exact ⟨by decide, h.mpr hc, by decide⟩
  | gt =>
    right
    right
    have heqf : Num.eq x y = false := by
      cases hb : Num.eq x y
      · rfl
      · have h2 := h.mp hb
        rw [hc] at h2
        exact absurd h2 (by decide)
    exact ⟨by decide, heqf, rfl⟩

set_option maxRecDepth 40000 in
/-- C4 (counterexample): the claim that `as_int()` on a Float succeeds iff
truncating to `i32` and casting back reproduces the float *bit-for-bit*
fails at `-0.0`: `as_int(Float(-0.0))` is `Some(0)`, yet casting `0` back
gives `+0.0`, which is not bit-identical to `-0.0`. -/
theorem claim_as_int_bit_for_bit_cx :
    (Num.Float negZero).as_int = some 0 ∧
      (intToF64 (truncSatToI32 negZero)).toBits ≠ negZero.toBits := by
  decide

set_option maxRecDepth 40000 in
/-- C4 (amended): `as_int()` on the Float variant returns `Some(i)` iff the
float compares IEEE-equal to the cast-back value — equivalently, it is
finite with integral value `i` (`scaled = i·2^1074`) in the signed 32-bit
range; `-0.0` therefore yields `Some(0)` although not bit-identical to
`+0.0`.  NaN, the infinities, `42.75` and `-42.75` yield `None`;
`Float(double(min_i32))` and `Float(double(max_i32))` yield the extremes. -/
theorem claim_as_int_float_characterization :
    (∀ (f : F64) (i : ℤ),
      (Num.Float f).as_int = some i ↔
        (f.isNan = false ∧ f.isInf = false ∧ f.scaled = i * 2 ^ 1074 ∧
          -(2 ^ 31) ≤ i ∧ i < 2 ^ 31)) ∧
    (Num.Float ⟨false, 2047, 1⟩).as_int = none ∧
    (Num.Float ⟨false, 2047, 0⟩).as_int = none ∧
    (Num.Float ⟨true, 2047, 0⟩).as_int = none ∧
    (Num.Float ⟨false, 1028, 43 * 2 ^ 45⟩).as_int = none ∧
    (Num.Float ⟨true, 1028, 43 * 2 ^ 45⟩).as_int = none ∧
    (Num.Float (intToF64 (-(2 ^ 31)))).as_int = some (-(2 ^ 31)) ∧
    (Num.Float (intToF64 (2 ^ 31 - 1))).as_int = some (2 ^ 31 - 1) := by
  refine ⟨?_, by decide, by decide, by decide, by decide, by decide, by decide,
    by decide⟩
  intro f i
  constructor
  · intro h
    have h2 : f64_to_i32_exact f = some i := h
    simp only [f64_to_i32_exact] at h2
    by_cases hc : ieeeEq (intToF64 (truncSatToI32 f)) f = true
    · rw [if_pos hc] at h2
      injection h2 with h3
      subst h3
      obtain ⟨hna, hnb, hcase⟩ := ieeeEq_elim _ _ hc
      have hrange := truncSat_range f
      obtain ⟨hni, hii, hsci⟩ := intToF64_exact (truncSatToI32 f)
        (by rcases Int.natAbs_eq (truncSatToI32 f) with hx | hx <;> omega)
      rcases hcase with ⟨hinf1, _, _⟩ | ⟨_, hinf2, hsc2⟩
      · rw [hii] at hinf1
        exact absurd hinf1 (by simp)
      · exact ⟨hnb, hinf2, by rw [← hsc2, hsci], hrange.1, by
          have := hrange.2
          omega⟩
    · rw [if_neg hc] at h2
      cases h2
  · rintro ⟨hna, hni, hsc, h1, h2⟩
    have htr : f.truncTo0 = i := trunc_of_scaled f i hsc
    have hts : truncSatToI32 f = i := by
      unfold truncSatToI32
      rw [if_neg (by simp [hna]), if_neg (by simp [hni]), htr]
      rw [max_def, min_def]
      split_ifs <;> omega
    show f64_to_i32_exact f = some i
    simp only [f64_to_i32_exact]
    rw [hts]
    obtain ⟨hni2, hii2, hsci2⟩ := intToF64_exact i
      (by rcases Int.natAbs_eq i with hx | hx <;> omega)
    rw [if_pos (ieeeEq_of_scaled _ _ hni2 hna hii2 hni (by rw [hsci2, hsc]))]

/-- C5: Hash algorithm: when `as_int` succeeds with `i` the hash is `i`
sign-extended to 64 bits; when the value is a Float with `as_int` absent
the hash is `float_hash` of it; when it is an integer with `as_int` absent
(an arbitrary-precision integer outside 32-bit range) the hash is
`float_hash` of the value widened to double. -/
theorem claim_hash_algorithm :
    ∀ x : Num,
      (∀ i : ℤ, x.as_int = some i → x.get_hash_64 = i32_as_u64 i) ∧
      (∀ f : F64, x = .Float f → x.as_int = none → x.get_hash_64 = float_hash f) ∧
      (∀ a : StarlarkIntRef, x = .Int a → x.as_int = none →
        x.get_hash_64 = float_hash (intToF64 a.toIntVal)) := by
  intro x
  refine ⟨?_, ?_, ?_⟩
  · intro i hi
    unfold Num.get_hash_64
    rw [hi]
  · intro f hf hnone
    subst hf
    have hn2 : f64_to_i32_exact f = none := hnone
    rw [hash_float_as_int, hn2]
  · intro a ha hnone
    subst ha
    cases a with
    | Small i =>
      exfalso
      have hs : (Num.Int (.Small i)).as_int = some i := rfl
      rw [hs] at hnone
      cases hnone
    | Big v =>
      unfold Num.get_hash_64
      rw [hnone]
      rfl

/-- C9: Equality agrees with the ordering: `x == y` holds iff
`cmp(x, y)` returns `Equal`, in both the exact Int/Int branch and the
widened float branch. -/
theorem claim_eq_agrees_with_cmp :
    ∀ x y : Num, Num.eq x y = true ↔ Num.cmp x y = .eq :=
  num_eq_iff_cmp_eq

set_option maxRecDepth 40000 in
/-- C10: The equality law is not transitive across variants: the
arbitrary-precision integers `2^60` and `2^60 + 1` (both well-formed `Big`
values) each equal the Float holding the double both round to, yet differ
from each other under the exact Int/Int comparison. -/
theorem claim_eq_not_transitive :
    Num.wf (.Int (.Big (2 ^ 60))) ∧ Num.wf (.Int (.Big (2 ^ 60 + 1))) ∧
      Num.wf (.Float (intToF64 (2 ^ 60))) ∧
      (StarlarkIntRef.to_f64 (.Big (2 ^ 60 + 1))).toBits = (intToF64 (2 ^ 60)).toBits ∧
      Num.eq (.Int (.Big (2 ^ 60))) (.Float (intToF64 (2 ^ 60))) = true ∧
      Num.eq (.Int (.Big (2 ^ 60 + 1))) (.Float (intToF64 (2 ^ 60))) = true ∧
      Num.eq (.Int (.Big (2 ^ 60))) (.Int (.Big (2 ^ 60 + 1))) = false := by
  decide

/-- C6: `isinstance(v, ty)` compiles `ty` through the same deprecation-aware
path as `eval_type(ty)` and returns exactly the boolean of matching `v`
against the compiled predicate: it succeeds iff `eval_type` succeeds, on
success returns `predicate.matches(v)`, and on failure propagates the same
error. -/
theorem claim_isinstance_refines_eval_type :
    ∀ (compile : RVal → Except String TypeCompiled) (v ty : RVal),
      ((∃ b, isinstance compile v ty = .ok b) ↔
        (∃ p, eval_type compile ty = .ok p)) ∧
      (∀ p, eval_type compile ty = .ok p →
        isinstance compile v ty = .ok (p.matchesV v)) ∧
      (∀ e, eval_type compile ty = .error e → isinstance compile v ty = .error e) := by
  intro compile v ty
  cases h : compile ty with
  | ok p =>
    refine ⟨?_, ?_, ?_⟩
    · simp [isinstance, eval_type, h]
    · intro p2 hp2
      have hp3 : compile ty = .ok p2 := hp2
      rw [h] at hp3
      injection hp3 with hp4
      subst hp4
      simp [isinstance, h]
    · intro e he
      have he2 : compile ty = .error e := he
      rw [h] at he2
      cases he2
  | error e =>
    refine ⟨?_, ?_, ?_⟩
    · simp [isinstance, eval_type, h]
    · intro p2 hp2
      have hp3 : compile ty = .ok p2 := hp2
      rw [h] at hp3
      cases hp3
    · intro e2 he
      have he2 : compile ty = .error e2 := he
      rw [h] at he2
      injection he2 with he3
      subst he3
      simp [isinstance, h]

/-- C7: a type expression that is not a recognized type expression makes
compilation fail with a type error naming the expected category and the
actual type name; in particular `isinstance(1, "")` fails with exactly
``Expected type `type` but got `str```. -/
theorem claim_isinstance_type_error :
    (∀ v ty : RVal, ty.isTypeV = false →
      isinstance TypeCompiled.new_with_deprecation v ty =
        .error ("Expected type `type` but got `" ++ ty.typeName ++ "`")) ∧
    isinstance TypeCompiled.new_with_deprecation (.intV (.Small 1)) (.strV "") =
      .error "Expected type `type` but got `str`" := by
  constructor
  · intro v ty hty
    cases ty <;>
      simp_all [isinstance, TypeCompiled.new_with_deprecation, RVal.isTypeV,
        RVal.typeName]
  · rfl

/-- C8: `unpack_value(v)` returns `Some` iff `v` is an integer of any width
or a float, and returns `None` for every other value — a local control-flow
outcome of a total function, never an error. -/
theorem claim_unpack_value_totality :
    ∀ v : RVal,
      ((∃ n, Num.unpack_value v = some n) ↔
        ((∃ i, v = .intV i) ∨ (∃ f, v = .floatV f))) ∧
      (∀ i, v = .intV i → Num.unpack_value v = some (.Int i)) ∧
      (∀ f, v = .floatV f → Num.unpack_value v = some (.Float f)) := by
  intro v
  cases v <;>
    simp [Num.unpack_value, StarlarkIntRef.unpack_value, downcast_float]

end Starlark

